import Mathlib

/-!
Verification development for the two exercises of this repository.

Part 1 embeds `rain_probability.c`: the Poisson-binomial probability mass
function (`prob_mass_func`) and the tail probability
(`prob_rain_more_than_n`).  C floats are embedded as exact rationals, the
input array `float *p` as a `List ℚ` whose reads return `Option ℚ`
(an out-of-bounds read has no defined value), and the pmf array of 366
floats as a total function `ℕ → ℚ` updated pointwise (every write of the
source lands in 0..365).  A C function whose execution performs an
out-of-bounds read is embedded as returning `none`.

Part 2 embeds `most_freq_words.c`: byte-wise tokenization with a 150-byte
word buffer, the djb2 hash table of word counts, and the sort-and-take-n
result extraction.
-/

/-- `DAYSPERYEAR` of `rain_probability.c`. -/
def DAYSPERYEAR : ℕ := 365

/-- The inner loop of `prob_mass_func`: `for (j = i - 1; j > 0; j--)
pmf[j] = p[i] * pmf[j-1] + (1 - p[i]) * pmf[j];` run from `j` downwards,
with `pi` the value read for `p[i]`. -/
def pmf_inner (pi : ℚ) : (ℕ → ℚ) → ℕ → (ℕ → ℚ)
  | pmf, 0 => pmf
  | pmf, j + 1 =>
    pmf_inner pi (Function.update pmf (j + 1) (pi * pmf j + (1 - pi) * pmf (j + 1))) j

/-- One iteration of the outer loop of `prob_mass_func` for index `i`:
`pmf[i] = p[i] * pmf[i-1];` then the inner loop from `j = i - 1` down to
`1`, then `pmf[0] = (1 - p[i]) * pmf[0];`. -/
def pmf_trial (pi : ℚ) (pmf : ℕ → ℚ) (i : ℕ) : ℕ → ℚ :=
  let pmf1 := Function.update pmf i (pi * pmf (i - 1))
  let pmf2 := pmf_inner pi pmf1 (i - 1)
  Function.update pmf2 0 ((1 - pi) * pmf2 0)

/-- The outer loop of `prob_mass_func`, `for (i = 1; i <= DAYSPERYEAR; i++)`,
starting at index `i`.  Each iteration reads `p[i]`; a read outside the
list is undefined in the source, so the run returns `none`. -/
def prob_mass_func_go (p : List ℚ) (i : ℕ) (pmf : ℕ → ℚ) : Option (ℕ → ℚ) :=
  if h : i ≤ DAYSPERYEAR then
    match p[i]? with
    | none => none
    | some pi => prob_mass_func_go p (i + 1) (pmf_trial pi pmf i)
  else some pmf
termination_by DAYSPERYEAR + 1 - i
decreasing_by simp [DAYSPERYEAR] at h ⊢; omega

/-- `prob_mass_func` of `rain_probability.c`: sets `pmf[0] = 1.0` and runs
the convolution loop for `i = 1 .. DAYSPERYEAR` on the caller's pmf array. -/
def prob_mass_func (p : List ℚ) (pmf : ℕ → ℚ) : Option (ℕ → ℚ) :=
  prob_mass_func_go p 1 (Function.update pmf 0 1)

/-- `prob_rain_more_than_n` of `rain_probability.c`: returns `0.0` when
`n < 0 || n >= DAYSPERYEAR`, otherwise zero-initializes a pmf array of
366 entries, fills it with `prob_mass_func`, and sums `pmf[k]` for
`k = n + 1 .. DAYSPERYEAR`. -/
def prob_rain_more_than_n (p : List ℚ) (n : ℤ) : Option ℚ :=
  if n < 0 ∨ (DAYSPERYEAR : ℤ) ≤ n then some 0
  else
    match prob_mass_func p (fun _ => 0) with
    | none => none
    | some pmf => some (Finset.sum (Finset.Icc (n.toNat + 1) DAYSPERYEAR) pmf)

/-- The sum of the 366 pmf entries the source maintains (`pmf[0..365]`). -/
def pmf_total (pmf : ℕ → ℚ) : ℚ :=
  Finset.sum (Finset.range (DAYSPERYEAR + 1)) pmf

/-- `WORD_BUFFER_SIZE` of `most_freq_words.c`. -/
def WORD_BUFFER_SIZE : ℕ := 150

/-- `HASH_TABLE_SIZE` of `most_freq_words.c`. -/
def HASH_TABLE_SIZE : ℕ := 10000

/-- The apostrophe byte, `'\''` of the source. -/
def apostrophe : Char := Char.ofNat 39

/-- C `isalpha` in the default locale: ASCII `a-z` or `A-Z`. -/
def isalpha (c : Char) : Bool :=
  (decide ('a' ≤ c) && decide (c ≤ 'z')) || (decide ('A' ≤ c) && decide (c ≤ 'Z'))

/-- C `tolower` in the default locale: fold `A-Z` to `a-z`, else identity. -/
def tolower (c : Char) : Char :=
  if 'A' ≤ c ∧ c ≤ 'Z' then Char.ofNat (c.toNat + 32) else c

/-- The read loop of `find_frequent_words` (lines 133-156): `buf` is the
word buffer contents (`pos` characters stored), the second argument the
input not yet read.  Returns the emitted words in order.  A word character
(`isalpha(c) || (c == apostrophe && pos > 0)`) is stored case-folded while
`pos < WORD_BUFFER_SIZE - 1` and dropped otherwise; any other character
emits the buffered word if non-empty; end of input emits a final word. -/
def tokenize_go : List Char → List Char → List (List Char)
  | buf, [] => if 0 < buf.length then [buf] else []
  | buf, c :: cs =>
    if isalpha c = true ∨ (c = apostrophe ∧ 0 < buf.length) then
      if buf.length < WORD_BUFFER_SIZE - 1 then tokenize_go (buf ++ [tolower c]) cs
      else tokenize_go buf cs
    else
      if 0 < buf.length then buf :: tokenize_go [] cs
      else tokenize_go [] cs

/-- The tokenization `find_frequent_words` performs on the whole input. -/
def tokenize (input : List Char) : List (List Char) :=
  tokenize_go [] input

/-- The loop of `djb2_hash`: `hash = hash * 33 + c` in `unsigned int`
arithmetic over the bytes of the word. -/
def djb2_hash_go : ℕ → List Char → ℕ
  | h, [] => h
  | h, c :: cs => djb2_hash_go ((h * 33 + c.toNat) % 2 ^ 32) cs

/-- `djb2_hash` of `most_freq_words.c`: the loop from 5381, then
`% HASH_TABLE_SIZE`. -/
def djb2_hash (w : List Char) : ℕ :=
  djb2_hash_go 5381 w % HASH_TABLE_SIZE

/-- A hash bucket: the linked list of `WordFreqNode`s, eldest last. -/
abbrev Chain := List (List Char × ℕ)

/-- The hash table: an array of `HASH_TABLE_SIZE` buckets (all other
indices stay empty). -/
abbrev Table := ℕ → Chain

/-- The search loop of `add_word`: walk the chain; at the first node whose
word matches, increment its count and stop (`some` of the new chain);
`none` when no node matches. -/
def chain_bump (w : List Char) : Chain → Option Chain
  | [] => none
  | e :: rest =>
    if e.1 = w then some ((e.1, e.2 + 1) :: rest)
    else (chain_bump w rest).map (fun c => e :: c)

/-- `add_word` of `most_freq_words.c`: increment the count of `w` in its
bucket, or prepend a fresh node with count 1 at the head of the bucket. -/
def add_word (table : Table) (w : List Char) : Table :=
  match chain_bump w (table (djb2_hash w)) with
  | some c => Function.update table (djb2_hash w) c
  | none => Function.update table (djb2_hash w) ((w, 1) :: table (djb2_hash w))

/-- The zero-initialized `hash_table[HASH_TABLE_SIZE] = {0}`. -/
def empty_table : Table := fun _ => []

/-- The table after `add_word` has been called on each token in order. -/
def build_table (ws : List (List Char)) : Table :=
  ws.foldl add_word empty_table

/-- The inner gather loop of `find_frequent_words` (lines 166-174) over
one bucket: `word_linked_list[count] = node; count++;` for each node of
the chain.  The accumulator is the array contents written so far
(`count = acc.length`); the write is in bounds only while
`count < HASH_TABLE_SIZE`, the destination being the fixed stack array
`WordFreqNode *word_linked_list[HASH_TABLE_SIZE]`, so a run that would
write past it returns `none`. -/
def gather_chain : Chain → Chain → Option Chain
  | acc, [] => some acc
  | acc, e :: rest =>
    if acc.length < HASH_TABLE_SIZE then gather_chain (acc ++ [e]) rest
    else none

/-- The `word_linked_list` array of `find_frequent_words` after the gather
loops: every node of every bucket for `i = 0 .. HASH_TABLE_SIZE - 1`,
written with an unguarded `count++` into the fixed 10000-entry stack
array — `none` when the nodes outnumber the slots. -/
def word_linked_list (table : Table) : Option Chain :=
  (List.range HASH_TABLE_SIZE).foldl
    (fun acc i =>
      match acc with
      | none => none
      | some a => gather_chain a (table i))
    (some [])

/-- Observation: all nodes of all buckets, in gather order (what the
gather writes when it stays within the array). -/
def all_nodes (table : Table) : Chain :=
  (List.range HASH_TABLE_SIZE).flatMap table

/-- `qsort` with `compare_by_frequency` (`b->count - a->count`, high to
low): a node sorts before another when its count is at least as large. -/
def sort_by_frequency (l : Chain) : Chain :=
  l.mergeSort (fun a b => decide (b.2 ≤ a.2))

/-- `find_frequent_words` after a successful `fopen` (allocation failure
out of scope): tokenize, count in the hash table, gather the nodes into
the fixed `word_linked_list` array, sort by descending count, and keep
the first `n` entries (fewer when fewer nodes exist; the source leaves
`result[i]` untouched for `i ≥ count`).  `none` when the gather writes
past the 10000-entry array. -/
def find_frequent_words (text : List Char) (n : ℕ) : Option (List (List Char)) :=
  (word_linked_list (build_table (tokenize text))).map
    (fun ll => ((sort_by_frequency ll).map (fun e => e.1)).take n)

/-- The error kinds of spec section 4.2 as the driver realizes them:
`InvalidArgument` is `main`'s `n <= 0` check (exit before any read),
`InputUnavailable` is the `fopen` failure return of
`find_frequent_words`. -/
inductive WordsError : Type
  | InputUnavailable : WordsError
  | InvalidArgument : WordsError
deriving DecidableEq

/-- The word-counter component as `main` drives it: validate `n`, then
open the source (the argument `none` stands for a source that cannot be
opened), then run `find_frequent_words` on the character stream.  The
outer `Option` is definedness: a run that overflows the gather array has
no outcome at all (`none`), neither an error kind nor a result. -/
def top_n_words (source : Option (List Char)) (n : ℤ) :
    Option (Except WordsError (List (List Char))) :=
  if n ≤ 0 then some (Except.error WordsError.InvalidArgument)
  else
    match source with
    | none => some (Except.error WordsError.InputUnavailable)
    | some text => (find_frequent_words text n.toNat).map Except.ok

/-- Observation: the total count recorded for word `w` in one chain. -/
def chain_count (w : List Char) (chain : Chain) : ℕ :=
  ((chain.filter (fun e => e.1 == w)).map (fun e => e.2)).sum

/-- Observation: the count the table records for word `w`. -/
def table_count (table : Table) (w : List Char) : ℕ :=
  chain_count w (table (djb2_hash w))

/-- The tokenization rule of spec section 4.2, transcribed as a left fold
over the stream, amended with the source's buffer cap: the state is the
current word and the words emitted so far; a word character (letter, or
apostrophe with a non-empty current word) is case-folded and appended
while fewer than `WORD_BUFFER_SIZE - 1` characters are stored, any other
character emits a non-empty current word, and end of input emits what
remains. -/
def spec_step (s : List Char × List (List Char)) (c : Char) : List Char × List (List Char) :=
  if isalpha c = true ∨ (c = apostrophe ∧ s.1 ≠ []) then
    if s.1.length < WORD_BUFFER_SIZE - 1 then (s.1 ++ [tolower c], s.2) else s
  else if s.1 ≠ [] then ([], s.2 ++ [s.1])
  else s

/-- The spec's tokenization (amended by the buffer cap), as a fold. -/
def spec_tokenize (input : List Char) : List (List Char) :=
  let s := input.foldl spec_step ([], [])
  if s.1 ≠ [] then s.2 ++ [s.1] else s.2

/-- The `i`-th three-letter lowercase word (base-26 digits as `a`..`z`):
a supply of more distinct words than the gather array has slots. -/
def wordOfNat (i : ℕ) : List Char :=
  [Char.ofNat (97 + i / 676 % 26), Char.ofNat (97 + i / 26 % 26), Char.ofNat (97 + i % 26)]

/-- A stream of `HASH_TABLE_SIZE + 1 = 10001` distinct blank-separated
words: one more distinct word than the gather array can hold. -/
def overflow_text : List Char :=
  (List.range (HASH_TABLE_SIZE + 1)).flatMap (fun i => wordOfNat i ++ [' '])

/-! ### Out-of-bounds behaviour of the pmf loop

The outer loop of `prob_mass_func` runs `i = 1 .. 365` and reads `p[i]`,
so on a 365-element probability vector (valid indices 0..364) it reads
`p[365]` at its last iteration and never reads `p[0]`. -/

lemma prob_mass_func_go_none (p : List ℚ) (hp : p.length = DAYSPERYEAR) :
    ∀ (d i : ℕ) (pmf : ℕ → ℚ), i + d = DAYSPERYEAR → 1 ≤ i →
      prob_mass_func_go p i pmf = none := by
  intro d
  induction d with
  | zero =>
    intro i pmf hid _
    have hi : i = DAYSPERYEAR := by omega
    subst hi
    unfold prob_mass_func_go
    rw [dif_pos le_rfl]
    have hnone : p[DAYSPERYEAR]? = none := by
      rw [List.getElem?_eq_none_iff, hp]
    rw [hnone]
  | succ d ih =>
    intro i pmf hid hi
    unfold prob_mass_func_go
    rw [dif_pos (by omega : i ≤ DAYSPERYEAR)]
    have hsome : p[i]? = some p[i] := List.getElem?_eq_getElem (by omega)
    rw [hsome]
    exact ih (i + 1) _ (by omega) (by omega)

lemma prob_mass_func_none (p : List ℚ) (pmf : ℕ → ℚ) (hp : p.length = DAYSPERYEAR) :
    prob_mass_func p pmf = none :=
  prob_mass_func_go_none p hp (DAYSPERYEAR - 1) 1 _ (by norm_num [DAYSPERYEAR]) le_rfl

lemma prob_rain_in_range_none (p : List ℚ) (n : ℤ) (hp : p.length = DAYSPERYEAR)
    (h0 : 0 ≤ n) (h1 : n < (DAYSPERYEAR : ℤ)) : prob_rain_more_than_n p n = none := by
  unfold prob_rain_more_than_n
  rw [if_neg (by omega)]
  rw [prob_mass_func_none p _ hp]

lemma prob_rain_out_of_range (p : List ℚ) (n : ℤ) (h : n < 0 ∨ (DAYSPERYEAR : ℤ) ≤ n) :
    prob_rain_more_than_n p n = some 0 := by
  unfold prob_rain_more_than_n
  rw [if_pos h]

/-- C1.  The claim asks `prob_rain_more_than_n(p, n)` to equal the
Poisson-binomial tail probability of the 365 trials `p[0..364]`.  It does
not: the pmf loop runs `i = 1 .. 365` over `p[i]`, so already on the
all-dry vector (every entry `0`, claimed tail `P(S > 0) = 0`) the run
reads `p[365]`, past the 365-entry vector, and no defined value is
produced at all (the run is `none`; the loop also never reads `p[0]`). -/
theorem prob_rain_reads_past_the_vector :
    prob_rain_more_than_n (List.replicate DAYSPERYEAR (0 : ℚ)) 0 = none :=
  prob_rain_in_range_none _ 0 (List.length_replicate _ _) le_rfl (by norm_num [DAYSPERYEAR])

/-- C2.  The claim states every read of `p` stays within 0..364, making
the out-of-bounds branch unreachable.  It is reachable: for every
probability vector of length 365 and every in-range threshold, the pmf
loop's last iteration reads `p[365]` and the embedded run returns `none`
instead of a value. -/
theorem prob_rain_oob_read_on_365_vector (p : List ℚ) (n : ℤ)
    (hlen : p.length = DAYSPERYEAR) (hrange : ∀ x ∈ p, 0 ≤ x ∧ x ≤ 1)
    (h0 : 0 ≤ n) (h1 : n < (DAYSPERYEAR : ℤ)) :
    prob_rain_more_than_n p n = none :=
  prob_rain_in_range_none p n hlen h0 h1

/-- Witness for C2 at the all-dry vector and `n = 7`. -/
theorem prob_rain_oob_read_on_365_vector_witness :
    prob_rain_more_than_n (List.replicate DAYSPERYEAR (0 : ℚ)) 7 = none :=
  prob_rain_oob_read_on_365_vector _ 7 (List.length_replicate _ _)
    (fun x hx => by rw [List.eq_of_mem_replicate hx]; norm_num)
    (by norm_num) (by norm_num [DAYSPERYEAR])

/-- C3.  For `n < 0` or `n ≥ 365` the function returns `0.0` at once (the
defined boundary policy), touching neither `p` nor the pmf array. -/
theorem prob_rain_boundary_policy_zero (p : List ℚ) (n : ℤ)
    (h : n < 0 ∨ (DAYSPERYEAR : ℤ) ≤ n) :
    prob_rain_more_than_n p n = some 0 :=
  prob_rain_out_of_range p n h

/-- Witness for C3 at `p = []`, `n = -3` and `n = 400`. -/
theorem prob_rain_boundary_policy_zero_witness :
    prob_rain_more_than_n [] (-3) = some 0 ∧ prob_rain_more_than_n [] 400 = some 0 :=
  ⟨prob_rain_boundary_policy_zero [] (-3) (Or.inl (by norm_num)),
   prob_rain_boundary_policy_zero [] 400 (Or.inr (by norm_num [DAYSPERYEAR]))⟩

/-- Counterexample to C4: at the all-dry vector (a probability vector of
length 365 with entries in `[0,1]`) the code returns `0.0` for `n = -1`,
not the claimed `1.0` — `n < 0` falls under the same `0.0` boundary
policy as `n ≥ 365` (spec section 4.1), not under section 8's
`tail_probability(p, -1) == 1.0`. -/
theorem tail_at_neg_one_is_not_one :
    prob_rain_more_than_n (List.replicate DAYSPERYEAR (0 : ℚ)) (-1) = some 0 ∧
      prob_rain_more_than_n (List.replicate DAYSPERYEAR (0 : ℚ)) (-1) ≠ some 1 := by
  have h := prob_rain_out_of_range (List.replicate DAYSPERYEAR (0 : ℚ)) (-1)
    (Or.inl (by norm_num))
  exact ⟨h, by rw [h]; simp⟩

/-- C4 as amended: for every probability vector of length 365 with entries
in `[0,1]`, both `tail_probability(p, -1)` and `tail_probability(p, 365)`
return `0.0` under the defined boundary policy. -/
theorem tail_at_neg_one_and_365_zero (p : List ℚ)
    (hlen : p.length = DAYSPERYEAR) (hrange : ∀ x ∈ p, 0 ≤ x ∧ x ≤ 1) :
    prob_rain_more_than_n p (-1) = some 0 ∧
      prob_rain_more_than_n p (DAYSPERYEAR : ℤ) = some 0 :=
  ⟨prob_rain_out_of_range p (-1) (Or.inl (by norm_num)),
   prob_rain_out_of_range p _ (Or.inr le_rfl)⟩

/-- Witness for the amended C4 at the all-dry vector. -/
theorem tail_at_neg_one_and_365_zero_witness :
    prob_rain_more_than_n (List.replicate DAYSPERYEAR (0 : ℚ)) (-1) = some 0 ∧
      prob_rain_more_than_n (List.replicate DAYSPERYEAR (0 : ℚ)) (DAYSPERYEAR : ℤ) = some 0 :=
  tail_at_neg_one_and_365_zero _ (List.length_replicate _ _)
    (fun x hx => by rw [List.eq_of_mem_replicate hx]; norm_num)

/-- C9.  Two-run noninterference with `p[0]` as the high input: the pmf
loop reads `p[1] .. p[365]` and never `p[0]`, so two length-365 vectors
that agree on indices 1..364 produce the same result for every `n` — for
out-of-range `n` both runs return the boundary `0.0` before reading `p`,
and for in-range `n` both runs hit the same out-of-bounds read of
`p[365]`. -/
theorem tail_ignores_first_day (p q : List ℚ) (n : ℤ)
    (hp : p.length = DAYSPERYEAR) (hq : q.length = DAYSPERYEAR)
    (hagree : ∀ i : ℕ, 1 ≤ i → i ≤ DAYSPERYEAR - 1 → p[i]? = q[i]?)
    (hdiff : p[0]? ≠ q[0]?) :
    prob_rain_more_than_n p n = prob_rain_more_than_n q n := by
  by_cases h : n < 0 ∨ (DAYSPERYEAR : ℤ) ≤ n
  · rw [prob_rain_out_of_range p n h, prob_rain_out_of_range q n h]
  · push_neg at h
    rw [prob_rain_in_range_none p n hp (by omega) h.2,
      prob_rain_in_range_none q n hq (by omega) h.2]

/-- Witness for C9: the vector starting with probability 1 and the all-dry
vector agree on indices 1..364, differ at index 0, and give the same
result at `n = 0`. -/
theorem tail_ignores_first_day_witness :
    prob_rain_more_than_n ((1 : ℚ) :: List.replicate (DAYSPERYEAR - 1) 0) 0 =
      prob_rain_more_than_n (List.replicate DAYSPERYEAR (0 : ℚ)) 0 := by
  refine tail_ignores_first_day _ _ 0
    (by rw [List.length_cons, List.length_replicate]; norm_num [DAYSPERYEAR])
    (List.length_replicate _ _) (fun i h1 h2 => ?_)
    (by rw [List.getElem?_cons_zero,
          List.getElem?_replicate_of_lt (by norm_num [DAYSPERYEAR])]; simp)
  obtain ⟨j, rfl⟩ : ∃ j, i = j + 1 := ⟨i - 1, by omega⟩
  rw [List.getElem?_cons_succ, List.getElem?_replicate_of_lt (by omega),
    List.getElem?_replicate_of_lt (by omega)]

/-! ### The convolution step preserves the pmf sum

Run in descending index order, each outer-loop iteration rewrites the pmf
array by the simultaneous convolution update; under the loop invariant
`pmf[k] = 0` for `k ≥ i` the total mass over `pmf[0..365]` is unchanged,
whatever the value read for `p[i]`. -/

lemma pmf_inner_eq (pi : ℚ) : ∀ (j : ℕ) (pmf : ℕ → ℚ) (k : ℕ),
    pmf_inner pi pmf j k =
      if 1 ≤ k ∧ k ≤ j then pi * pmf (k - 1) + (1 - pi) * pmf k else pmf k := by
  intro j
  induction j with
  | zero =>
    intro pmf k
    simp only [pmf_inner]
    rw [if_neg (by omega)]
  | succ j ih =>
    intro pmf k
    simp only [pmf_inner]
    rw [ih]
    by_cases hk : 1 ≤ k ∧ k ≤ j
    · rw [if_pos hk, if_pos (by omega), Function.update_noteq (by omega),
        Function.update_noteq (by omega)]
    · rw [if_neg hk]
      by_cases hk2 : k = j + 1
      · subst hk2
        rw [if_pos (by omega), Function.update_same]
        norm_num
      · rw [if_neg (by omega), Function.update_noteq hk2]

lemma pmf_trial_eq (pi : ℚ) (pmf : ℕ → ℚ) (i : ℕ) (hi : 1 ≤ i) (k : ℕ) :
    pmf_trial pi pmf i k =
      if k = 0 then (1 - pi) * pmf 0
      else if k = i then pi * pmf (i - 1)
      else if k ≤ i - 1 then pi * pmf (k - 1) + (1 - pi) * pmf k
      else pmf k := by
  simp only [pmf_trial]
  by_cases hk0 : k = 0
  · subst hk0
    rw [if_pos rfl, Function.update_same, pmf_inner_eq, if_neg (by omega),
      Function.update_noteq (by omega)]
  · rw [Function.update_noteq hk0, if_neg hk0, pmf_inner_eq]
    by_cases hki : k = i
    · subst hki
      rw [if_neg (by omega), Function.update_same, if_pos rfl]
    · rw [if_neg hki]
      by_cases hkle : k ≤ i - 1
      · rw [if_pos ⟨by omega, hkle⟩, Function.update_noteq (by omega),
          Function.update_noteq hki, if_pos hkle]
      · rw [if_neg (by omega), Function.update_noteq hki, if_neg hkle]

lemma sum_conv (f : ℕ → ℚ) (pi : ℚ) (m : ℕ) :
    Finset.sum (Finset.range (m + 1))
        (fun k => if k = 0 then (1 - pi) * f 0 else pi * f (k - 1) + (1 - pi) * f k)
      = Finset.sum (Finset.range (m + 1)) f - pi * f m := by
  induction m with
  | zero =>
    rw [Finset.sum_range_one, Finset.sum_range_one, if_pos rfl]
    ring
  | succ m ih =>
    rw [Finset.sum_range_succ, ih, Finset.sum_range_succ f (m + 1),
      if_neg (Nat.succ_ne_zero m)]
    simp only [Nat.add_sub_cancel]
    ring

lemma pmf_trial_total (pi : ℚ) (pmf : ℕ → ℚ) (i : ℕ) (h1 : 1 ≤ i) (h2 : i ≤ DAYSPERYEAR)
    (hz : ∀ k, i ≤ k → pmf k = 0) (hs : pmf_total pmf = 1) :
    pmf_total (pmf_trial pi pmf i) = 1 := by
  have hsplit : ∀ g : ℕ → ℚ,
      Finset.sum (Finset.range (DAYSPERYEAR + 1)) g
        = Finset.sum (Finset.range (i + 1)) g
            + Finset.sum (Finset.Ico (i + 1) (DAYSPERYEAR + 1)) g := by
    intro g
    rw [Finset.range_eq_Ico]
    exact (Finset.sum_Ico_consecutive g (Nat.zero_le (i + 1)) (by omega)).symm
  have htail_new : Finset.sum (Finset.Ico (i + 1) (DAYSPERYEAR + 1)) (pmf_trial pi pmf i) = 0 := by
    refine Finset.sum_eq_zero fun k hk => ?_
    rw [Finset.mem_Ico] at hk
    rw [pmf_trial_eq pi pmf i h1 k, if_neg (by omega), if_neg (by omega), if_neg (by omega)]
    exact hz k (by omega)
  have htail_old : Finset.sum (Finset.Ico (i + 1) (DAYSPERYEAR + 1)) pmf = 0 := by
    refine Finset.sum_eq_zero fun k hk => ?_
    rw [Finset.mem_Ico] at hk
    exact hz k (by omega)
  have hhead : Finset.sum (Finset.range (i + 1)) (pmf_trial pi pmf i)
      = Finset.sum (Finset.range (i + 1))
          (fun k => if k = 0 then (1 - pi) * pmf 0
            else pi * pmf (k - 1) + (1 - pi) * pmf k) := by
    refine Finset.sum_congr rfl fun k hk => ?_
    rw [Finset.mem_range] at hk
    rw [pmf_trial_eq pi pmf i h1 k]
    by_cases hk0 : k = 0
    · rw [if_pos hk0, if_pos hk0]
    · rw [if_neg hk0, if_neg hk0]
      by_cases hki : k = i
      · subst hki
        rw [if_pos rfl, hz k le_rfl]
        ring
      · rw [if_neg hki, if_pos (by omega)]
  rw [pmf_total, hsplit, htail_new, add_zero, hhead, sum_conv, hz i le_rfl]
  rw [pmf_total, hsplit pmf, htail_old, add_zero] at hs
  rw [hs]
  ring

/-- C5.  The normalization invariant and its breaking point.  First part:
one outer-loop iteration (any trial index `1 ≤ i ≤ 365`, any value read
for `p[i]`) keeps the total mass `sum(pmf[0..365])` exactly `1` under the
loop invariant that no mass sits at or above index `i`, so the invariant
does hold after every trial the loop manages to fold in.  Second part:
"after all 365 trials" never happens for a probability vector of length
365 — the last iteration reads `p[365]`, out of bounds, and
`prob_mass_func` completes no run (`none`). -/
theorem pmf_sum_invariant_and_final_oob :
    (∀ (pi : ℚ) (pmf : ℕ → ℚ) (i : ℕ), 1 ≤ i → i ≤ DAYSPERYEAR →
        (∀ k, i ≤ k → pmf k = 0) → pmf_total pmf = 1 →
        pmf_total (pmf_trial pi pmf i) = 1) ∧
    (∀ p : List ℚ, p.length = DAYSPERYEAR → (∀ x ∈ p, 0 ≤ x ∧ x ≤ 1) →
        prob_mass_func p (fun _ => 0) = none) :=
  ⟨pmf_trial_total, fun p hp _ => prob_mass_func_none p _ hp⟩

/-- Witness for C5: the first trial folded into the initial distribution
`pmf[0] = 1` with `p[1] = 1/3` keeps total mass `1`, and on the constant
`1/3` vector of length 365 the full pmf computation hits the
out-of-bounds read. -/
theorem pmf_sum_invariant_and_final_oob_witness :
    pmf_total (pmf_trial (1/3) (Function.update (fun _ => (0 : ℚ)) 0 1) 1) = 1 ∧
      prob_mass_func (List.replicate DAYSPERYEAR (1/3 : ℚ)) (fun _ => 0) = none := by
  constructor
  · refine pmf_sum_invariant_and_final_oob.1 (1/3) _ 1 le_rfl
      (by norm_num [DAYSPERYEAR]) (fun k hk => ?_) ?_
    · rw [Function.update_noteq (by omega)]
    · rw [pmf_total, Finset.sum_update_of_mem (by simp)]
      simp
  · exact pmf_sum_invariant_and_final_oob.2 _ (List.length_replicate _ _)
      (fun x hx => by rw [List.eq_of_mem_replicate hx]; norm_num)

/-! ### Truncation of long word-character runs -/

lemma tokenize_go_wordchars :
    ∀ (rest buf : List Char), buf ≠ [] → buf.length ≤ WORD_BUFFER_SIZE - 1 →
      (∀ c ∈ rest, isalpha c = true ∨ c = apostrophe) →
      tokenize_go buf rest
        = [buf ++ ((rest.take (WORD_BUFFER_SIZE - 1 - buf.length)).map tolower)] := by
  intro rest
  induction rest with
  | nil =>
    intro buf hne _ _
    simp only [tokenize_go, List.take_nil, List.map_nil, List.append_nil]
    rw [if_pos (List.length_pos.mpr hne)]
  | cons c cs ih =>
    intro buf hne hlen hw
    have hbufpos : 0 < buf.length := List.length_pos.mpr hne
    have hcw : isalpha c = true ∨ (c = apostrophe ∧ 0 < buf.length) := by
      rcases hw c (List.mem_cons_self c cs) with h | h
      · exact Or.inl h
      · exact Or.inr ⟨h, hbufpos⟩
    simp only [tokenize_go]
    rw [if_pos hcw]
    by_cases hcap : buf.length < WORD_BUFFER_SIZE - 1
    · rw [if_pos hcap,
        ih (buf ++ [tolower c]) (by simp) (by simp; omega) (fun x hx => hw x (List.mem_cons_of_mem c hx))]
      obtain ⟨m, hm⟩ : ∃ m, WORD_BUFFER_SIZE - 1 - buf.length = m + 1 :=
        ⟨WORD_BUFFER_SIZE - 1 - buf.length - 1, by omega⟩
      rw [hm, List.take_succ_cons, List.map_cons]
      have hm2 : WORD_BUFFER_SIZE - 1 - (buf ++ [tolower c]).length = m := by
        simp; omega
      rw [hm2]
      simp
    · have hfull : WORD_BUFFER_SIZE - 1 - buf.length = 0 := by omega
      rw [if_neg hcap,
        ih buf hne hlen (fun x hx => hw x (List.mem_cons_of_mem c hx)), hfull]
      simp

lemma tokenize_single_run (c : Char) (cs : List Char) (hc : isalpha c = true)
    (hcs : ∀ x ∈ cs, isalpha x = true ∨ x = apostrophe) :
    tokenize (c :: cs) = [((c :: cs).take (WORD_BUFFER_SIZE - 1)).map tolower] := by
  unfold tokenize
  simp only [tokenize_go]
  rw [if_pos (Or.inl hc), if_pos (by norm_num [WORD_BUFFER_SIZE]), List.nil_append,
    tokenize_go_wordchars cs [tolower c] (by simp) (by norm_num [WORD_BUFFER_SIZE]) hcs]
  have h149 : WORD_BUFFER_SIZE - 1 = 148 + 1 := rfl
  have h148 : WORD_BUFFER_SIZE - 1 - ([tolower c] : List Char).length = 148 := rfl
  rw [h148, h149, List.take_succ_cons, List.map_cons, List.singleton_append]

/-- C10.  A maximal run of word characters longer than
`WORD_BUFFER_SIZE - 1 = 149` characters is emitted as the single token
formed by its first 149 case-folded characters: the excess characters are
dropped without splitting the run, so two runs sharing the same first 149
characters tokenize identically.  (Stated for a run `c :: cs`: its first
character is a letter — a leading apostrophe never starts a word — and
every later character is a letter or an apostrophe; the formula also
covers runs of up to 149 characters, where `take` keeps everything.) -/
theorem long_run_truncates_to_149 (c d : Char) (cs ds : List Char)
    (hc : isalpha c = true) (hcs : ∀ x ∈ cs, isalpha x = true ∨ x = apostrophe)
    (hd : isalpha d = true) (hds : ∀ x ∈ ds, isalpha x = true ∨ x = apostrophe) :
    tokenize (c :: cs) = [((c :: cs).take (WORD_BUFFER_SIZE - 1)).map tolower] ∧
      ((c :: cs).take (WORD_BUFFER_SIZE - 1) = (d :: ds).take (WORD_BUFFER_SIZE - 1) →
        tokenize (c :: cs) = tokenize (d :: ds)) := by
  refine ⟨tokenize_single_run c cs hc hcs, fun h => ?_⟩
  rw [tokenize_single_run c cs hc hcs, tokenize_single_run d ds hd hds, h]

/-- Witness for C10: the 150-character run of `a`s is counted as the
149-character word, and tokenizes the same as the 151-character run. -/
theorem long_run_truncates_to_149_witness :
    tokenize ('a' :: List.replicate 149 'a')
        = [(('a' :: List.replicate 149 'a').take (WORD_BUFFER_SIZE - 1)).map tolower] ∧
      tokenize ('a' :: List.replicate 149 'a') = tokenize ('a' :: List.replicate 150 'a') := by
  have h := long_run_truncates_to_149 'a' 'a' (List.replicate 149 'a') (List.replicate 150 'a')
    (by decide) (fun x hx => Or.inl (by rw [List.eq_of_mem_replicate hx]; decide))
    (by decide) (fun x hx => Or.inl (by rw [List.eq_of_mem_replicate hx]; decide))
  exact ⟨h.1, h.2 (by decide)⟩

/-- Counterexample to C6 as stated: on the 150-character run of `a`s the
code does not accumulate every letter — the token is the first 149
characters, not the full run the stated accumulate-iff rule would give. -/
theorem untruncated_token_rule_fails :
    tokenize (List.replicate 150 'a') = [List.replicate 149 'a'] ∧
      List.replicate 149 'a' ≠ List.replicate 150 'a' := by
  constructor
  · have h : List.replicate 150 'a' = 'a' :: List.replicate 149 'a' := by decide
    rw [h, tokenize_single_run 'a' _ (by decide)
      (fun x hx => Or.inl (by rw [List.eq_of_mem_replicate hx]; decide))]
    decide
  · intro h
    have hl := congrArg List.length h
    simp at hl

/-! ### The source tokenizer implements the (amended) spec rule -/

lemma spec_step_eq (buf : List Char) (out : List (List Char)) (c : Char) :
    spec_step (buf, out) c
      = if isalpha c = true ∨ (c = apostrophe ∧ buf ≠ []) then
          (if buf.length < WORD_BUFFER_SIZE - 1 then (buf ++ [tolower c], out) else (buf, out))
        else if buf ≠ [] then ([], out ++ [buf]) else (buf, out) := rfl

lemma tokenize_go_spec : ∀ (input buf : List Char) (out : List (List Char)),
    out ++ tokenize_go buf input
      = (if (input.foldl spec_step (buf, out)).1 ≠ [] then
          (input.foldl spec_step (buf, out)).2 ++ [(input.foldl spec_step (buf, out)).1]
        else (input.foldl spec_step (buf, out)).2) := by
  intro input
  induction input with
  | nil =>
    intro buf out
    simp only [tokenize_go, List.foldl_nil]
    by_cases h : buf = []
    · subst h
      simp
    · rw [if_pos (List.length_pos.mpr h), if_pos h]
  | cons c cs ih =>
    intro buf out
    simp only [List.foldl_cons, tokenize_go, spec_step_eq]
    by_cases hw : isalpha c = true ∨ (c = apostrophe ∧ 0 < buf.length)
    · have hw2 : isalpha c = true ∨ (c = apostrophe ∧ buf ≠ []) := by
        rcases hw with h | ⟨h1, h2⟩
        exacts [Or.inl h, Or.inr ⟨h1, List.length_pos.mp h2⟩]
      rw [if_pos hw, if_pos hw2]
      by_cases hcap : buf.length < WORD_BUFFER_SIZE - 1
      · rw [if_pos hcap, if_pos hcap]
        exact ih (buf ++ [tolower c]) out
      · rw [if_neg hcap, if_neg hcap]
        exact ih buf out
    · rw [if_neg hw]
      rw [List.length_pos] at hw
      rw [if_neg hw]
      by_cases hb : buf = []
      · subst hb
        have hstate : (if ([] : List Char) ≠ [] then (([] : List Char), out ++ [([] : List Char)])
            else (([] : List Char), out)) = ([], out) := by simp
        rw [hstate, if_neg (by simp : ¬ 0 < List.length ([] : List Char))]
        exact ih [] out
      · rw [if_pos (List.length_pos.mpr hb), if_pos hb]
        have h := ih [] (out ++ [buf])
        rw [← h]
        simp

lemma tokenize_eq_spec (input : List Char) : tokenize input = spec_tokenize input := by
  have h := tokenize_go_spec input [] []
  simpa [tokenize, spec_tokenize] using h

/-! ### The hash table records exact occurrence counts -/

lemma chain_count_nil (w : List Char) : chain_count w [] = 0 := rfl

lemma chain_count_cons_pos (w : List Char) (e : List Char × ℕ) (rest : Chain)
    (h : e.1 = w) : chain_count w (e :: rest) = e.2 + chain_count w rest := by
  unfold chain_count
  rw [List.filter_cons_of_pos (by simp [h])]
  simp

lemma chain_count_cons_neg (w : List Char) (e : List Char × ℕ) (rest : Chain)
    (h : e.1 ≠ w) : chain_count w (e :: rest) = chain_count w rest := by
  unfold chain_count
  rw [List.filter_cons_of_neg (by simp [h])]

lemma chain_bump_count_same (w : List Char) : ∀ (ch ch' : Chain),
    chain_bump w ch = some ch' → chain_count w ch' = chain_count w ch + 1 := by
  intro ch
  induction ch with
  | nil => intro ch' h; simp [chain_bump] at h
  | cons e rest ih =>
    intro ch' h
    simp only [chain_bump] at h
    by_cases he : e.1 = w
    · rw [if_pos he] at h
      cases h
      rw [chain_count_cons_pos w (e.1, e.2 + 1) rest he, chain_count_cons_pos w e rest he]
      omega
    · rw [if_neg he] at h
      rcases Option.map_eq_some'.mp h with ⟨c, hc, rfl⟩
      rw [chain_count_cons_neg w e c he, chain_count_cons_neg w e rest he]
      exact ih c hc

lemma chain_bump_count_other (w v : List Char) (hne : v ≠ w) : ∀ (ch ch' : Chain),
    chain_bump w ch = some ch' → chain_count v ch' = chain_count v ch := by
  intro ch
  induction ch with
  | nil => intro ch' h; simp [chain_bump] at h
  | cons e rest ih =>
    intro ch' h
    simp only [chain_bump] at h
    by_cases he : e.1 = w
    · rw [if_pos he] at h
      cases h
      have hev : (e.1, e.2 + 1).1 ≠ v := by
        simp only []
        rw [he]
        exact fun hx => hne hx.symm
      rw [chain_count_cons_neg v _ rest hev,
        chain_count_cons_neg v e rest (by rw [he]; exact fun hx => hne hx.symm)]
    · rw [if_neg he] at h
      rcases Option.map_eq_some'.mp h with ⟨c, hc, rfl⟩
      by_cases hev : e.1 = v
      · rw [chain_count_cons_pos v e c hev, chain_count_cons_pos v e rest hev, ih c hc]
      · rw [chain_count_cons_neg v e c hev, chain_count_cons_neg v e rest hev]
        exact ih c hc

lemma table_count_add_same (t : Table) (w : List Char) :
    table_count (add_word t w) w = table_count t w + 1 := by
  unfold table_count add_word
  cases hb : chain_bump w (t (djb2_hash w)) with
  | some c =>
    dsimp only
    rw [Function.update_same]
    exact chain_bump_count_same w _ c hb
  | none =>
    dsimp only
    rw [Function.update_same, chain_count_cons_pos w (w, 1) _ rfl]
    omega

lemma table_count_add_other (t : Table) (w v : List Char) (hne : v ≠ w) :
    table_count (add_word t w) v = table_count t v := by
  unfold table_count add_word
  by_cases hh : djb2_hash v = djb2_hash w
  · rw [hh]
    cases hb : chain_bump w (t (djb2_hash w)) with
    | some c =>
      dsimp only
      rw [Function.update_same]
      exact chain_bump_count_other w v hne _ c hb
    | none =>
      dsimp only
      rw [Function.update_same, chain_count_cons_neg v (w, 1) _ (fun hx => hne hx.symm)]
  · cases hb : chain_bump w (t (djb2_hash w)) with
    | some c =>
      dsimp only
      rw [Function.update_noteq hh]
    | none =>
      dsimp only
      rw [Function.update_noteq hh]

lemma table_count_foldl : ∀ (ts : List (List Char)) (t : Table) (w : List Char),
    table_count (ts.foldl add_word t) w = table_count t w + ts.count w := by
  intro ts
  induction ts with
  | nil => intro t w; simp
  | cons a ts ih =>
    intro t w
    rw [List.foldl_cons, ih (add_word t a) w, List.count_cons]
    by_cases ha : a = w
    · subst ha
      rw [table_count_add_same]
      simp
      omega
    · rw [table_count_add_other t a w (fun hx => ha hx.symm)]
      simp [ha]

/-- C6 as amended.  First part: the source's read loop tokenizes exactly
by the spec's accumulate-or-terminate rule amended with the buffer cap
(`spec_step`/`spec_tokenize` transcribe that rule as a fold).  Second
part: after the whole stream is read, the hash table records for every
word exactly its number of token occurrences in the stream. -/
theorem tokenizer_rule_and_exact_counts :
    (∀ input : List Char, tokenize input = spec_tokenize input) ∧
    (∀ (input w : List Char),
        table_count (build_table (tokenize input)) w = (tokenize input).count w) := by
  refine ⟨tokenize_eq_spec, fun input w => ?_⟩
  rw [build_table, table_count_foldl (tokenize input) empty_table w]
  have h0 : table_count empty_table w = 0 := rfl
  rw [h0, Nat.zero_add]

/-! ### The flattened table holds each distinct word once -/

lemma chain_bump_map_fst (w : List Char) : ∀ (ch ch' : Chain),
    chain_bump w ch = some ch' → ch'.map (fun e => e.1) = ch.map (fun e => e.1) := by
  intro ch
  induction ch with
  | nil => intro ch' h; simp [chain_bump] at h
  | cons e rest ih =>
    intro ch' h
    simp only [chain_bump] at h
    by_cases he : e.1 = w
    · rw [if_pos he] at h
      cases h
      simp
    · rw [if_neg he] at h
      rcases Option.map_eq_some'.mp h with ⟨c, hc, rfl⟩
      simp only [List.map_cons, ih c hc]

lemma chain_bump_isSome_mem (w : List Char) : ∀ (ch ch' : Chain),
    chain_bump w ch = some ch' → w ∈ ch.map (fun e => e.1) := by
  intro ch
  induction ch with
  | nil => intro ch' h; simp [chain_bump] at h
  | cons e rest ih =>
    intro ch' h
    simp only [chain_bump] at h
    by_cases he : e.1 = w
    · exact List.mem_map.mpr ⟨e, List.mem_cons_self e rest, he⟩
    · rw [if_neg he] at h
      rcases Option.map_eq_some'.mp h with ⟨c, hc, _⟩
      exact List.mem_cons_of_mem _ (ih c hc)

lemma chain_bump_none_not_mem (w : List Char) : ∀ ch : Chain,
    chain_bump w ch = none → w ∉ ch.map (fun e => e.1) := by
  intro ch
  induction ch with
  | nil => intro _ hmem; simp at hmem
  | cons e rest ih =>
    intro h hmem
    simp only [chain_bump] at h
    by_cases he : e.1 = w
    · rw [if_pos he] at h
      cases h
    · rw [if_neg he] at h
      rcases List.mem_cons.mp hmem with hx | hx
      · exact he hx.symm
      · exact ih (Option.map_eq_none'.mp h) hx

lemma add_word_good (t : Table) (w : List Char)
    (hhash : ∀ i, ∀ e ∈ t i, djb2_hash e.1 = i)
    (hnodup : ∀ i, ((t i).map (fun e => e.1)).Nodup) :
    (∀ i, ∀ e ∈ add_word t w i, djb2_hash e.1 = i) ∧
    (∀ i, ((add_word t w i).map (fun e => e.1)).Nodup) ∧
    (∀ v, v ∈ ((add_word t w) (djb2_hash v)).map (fun e => e.1) ↔
      v = w ∨ v ∈ (t (djb2_hash v)).map (fun e => e.1)) := by
  unfold add_word
  cases hb : chain_bump w (t (djb2_hash w)) with
  | some c =>
    dsimp only
    have hfst := chain_bump_map_fst w _ c hb
    have hwmem := chain_bump_isSome_mem w _ c hb
    refine ⟨fun i e he => ?_, fun i => ?_, fun v => ?_⟩
    · by_cases hi : i = djb2_hash w
      · subst hi
        rw [Function.update_same] at he
        have : e.1 ∈ (t (djb2_hash w)).map (fun e => e.1) := by
          rw [← hfst]
          exact List.mem_map.mpr ⟨e, he, rfl⟩
        rcases List.mem_map.mp this with ⟨e0, he0, heq⟩
        rw [← heq]
        exact hhash _ e0 he0
      · rw [Function.update_noteq hi] at he
        exact hhash i e he
    · by_cases hi : i = djb2_hash w
      · subst hi
        rw [Function.update_same, hfst]
        exact hnodup _
      · rw [Function.update_noteq hi]
        exact hnodup i
    · by_cases hv : djb2_hash v = djb2_hash w
      · rw [hv, Function.update_same, hfst]
        constructor
        · exact fun h => Or.inr (hv ▸ h)
        · rintro (rfl | h)
          · exact hwmem
          · exact hv ▸ h
      · rw [Function.update_noteq hv]
        constructor
        · exact fun h => Or.inr h
        · rintro (rfl | h)
          · exact absurd rfl hv
          · exact h
  | none =>
    dsimp only
    have hnot := chain_bump_none_not_mem w _ hb
    refine ⟨fun i e he => ?_, fun i => ?_, fun v => ?_⟩
    · by_cases hi : i = djb2_hash w
      · subst hi
        rw [Function.update_same] at he
        rcases List.mem_cons.mp he with rfl | he0
        · rfl
        · exact hhash _ e he0
      · rw [Function.update_noteq hi] at he
        exact hhash i e he
    · by_cases hi : i = djb2_hash w
      · subst hi
        rw [Function.update_same, List.map_cons]
        exact List.nodup_cons.mpr ⟨hnot, hnodup _⟩
      · rw [Function.update_noteq hi]
        exact hnodup i
    · by_cases hv : djb2_hash v = djb2_hash w
      · rw [hv, Function.update_same, List.map_cons, List.mem_cons]
      · rw [Function.update_noteq hv]
        constructor
        · exact fun h => Or.inr h
        · rintro (rfl | h)
          · exact absurd rfl hv
          · exact h

lemma foldl_add_word_good : ∀ (ts : List (List Char)) (t : Table),
    (∀ i, ∀ e ∈ t i, djb2_hash e.1 = i) →
    (∀ i, ((t i).map (fun e => e.1)).Nodup) →
    ((∀ i, ∀ e ∈ (ts.foldl add_word t) i, djb2_hash e.1 = i) ∧
     (∀ i, (((ts.foldl add_word t) i).map (fun e => e.1)).Nodup) ∧
     (∀ v, v ∈ ((ts.foldl add_word t) (djb2_hash v)).map (fun e => e.1) ↔
        v ∈ ts ∨ v ∈ (t (djb2_hash v)).map (fun e => e.1))) := by
  intro ts
  induction ts with
  | nil =>
    intro t h1 h2
    exact ⟨h1, h2, fun v => by simp⟩
  | cons a ts ih =>
    intro t h1 h2
    rw [List.foldl_cons]
    have hstep := add_word_good t a h1 h2
    have hrec := ih (add_word t a) hstep.1 hstep.2.1
    refine ⟨hrec.1, hrec.2.1, fun v => ?_⟩
    rw [hrec.2.2 v, hstep.2.2 v, List.mem_cons]
    tauto

lemma build_table_good (ts : List (List Char)) :
    (∀ i, ∀ e ∈ build_table ts i, djb2_hash e.1 = i) ∧
    (∀ i, ((build_table ts i).map (fun e => e.1)).Nodup) ∧
    (∀ v, v ∈ ((build_table ts) (djb2_hash v)).map (fun e => e.1) ↔ v ∈ ts) := by
  unfold build_table
  have h := foldl_add_word_good ts empty_table (fun i e he => by simp [empty_table] at he)
    (fun i => by simp [empty_table])
  refine ⟨h.1, h.2.1, fun v => ?_⟩
  rw [h.2.2 v]
  simp [empty_table]

lemma djb2_hash_lt (w : List Char) : djb2_hash w < HASH_TABLE_SIZE :=
  Nat.mod_lt _ (by norm_num [HASH_TABLE_SIZE])

lemma all_nodes_mem (t : Table) (hhash : ∀ i, ∀ e ∈ t i, djb2_hash e.1 = i)
    (v : List Char) :
    v ∈ (all_nodes t).map (fun e => e.1) ↔
      v ∈ (t (djb2_hash v)).map (fun e => e.1) := by
  unfold all_nodes
  rw [List.map_flatMap]
  constructor
  · intro h
    rcases List.mem_flatMap.mp h with ⟨i, _, hv⟩
    rcases List.mem_map.mp hv with ⟨e, he, heq⟩
    have hi := hhash i e he
    subst heq
    rw [hi]
    exact hv
  · intro h
    exact List.mem_flatMap.mpr ⟨djb2_hash v,
      List.mem_range.mpr (djb2_hash_lt v), h⟩

lemma all_nodes_nodup (t : Table) (hhash : ∀ i, ∀ e ∈ t i, djb2_hash e.1 = i)
    (hnodup : ∀ i, ((t i).map (fun e => e.1)).Nodup) :
    ((all_nodes t).map (fun e => e.1)).Nodup := by
  unfold all_nodes
  rw [List.map_flatMap]
  rw [List.nodup_flatMap]
  refine ⟨fun i _ => hnodup i, ?_⟩
  refine (List.pairwise_lt_range HASH_TABLE_SIZE).imp ?_
  intro i j hij
  intro a hai haj
  rcases List.mem_map.mp hai with ⟨e, he, heq⟩
  rcases List.mem_map.mp haj with ⟨f, hf, hfq⟩
  have h1 := hhash i e he
  have h2 := hhash j f hf
  rw [heq] at h1
  rw [hfq] at h2
  omega

lemma words_perm_dedup (ts : List (List Char)) :
    List.Perm ((all_nodes (build_table ts)).map (fun e => e.1)) ts.dedup := by
  have good := build_table_good ts
  refine (List.perm_ext_iff_of_nodup
    (all_nodes_nodup _ good.1 good.2.1) ts.nodup_dedup).mpr ?_
  intro a
  rw [all_nodes_mem _ good.1 a, good.2.2 a, List.mem_dedup]

/-! ### Sorting by descending count -/

lemma sort_by_frequency_perm (l : Chain) : List.Perm (sort_by_frequency l) l :=
  List.mergeSort_perm l _

lemma sort_by_frequency_sorted (l : Chain) :
    (sort_by_frequency l).Pairwise (fun a b => b.2 ≤ a.2) := by
  unfold sort_by_frequency
  refine List.Pairwise.imp ?_ (List.sorted_mergeSort ?_ ?_ l)
  · intro a b hab
    simpa using hab
  · intro a b c hab hbc
    simp only [decide_eq_true_eq] at hab hbc ⊢
    omega
  · intro a b
    simp only [Bool.or_eq_true, decide_eq_true_eq]
    omega


/-! ### The gather array holds at most 10000 nodes -/

lemma gather_chain_eq : ∀ (ch acc : Chain), acc.length ≤ HASH_TABLE_SIZE →
    gather_chain acc ch =
      if acc.length + ch.length ≤ HASH_TABLE_SIZE then some (acc ++ ch) else none := by
  intro ch
  induction ch with
  | nil =>
    intro acc hacc
    simp only [gather_chain, List.length_nil, Nat.add_zero, List.append_nil]
    rw [if_pos hacc]
  | cons e rest ih =>
    intro acc hacc
    simp only [gather_chain, List.length_cons]
    by_cases hcap : acc.length < HASH_TABLE_SIZE
    · rw [if_pos hcap, ih (acc ++ [e]) (by simp; omega)]
      by_cases hfit : acc.length + (rest.length + 1) ≤ HASH_TABLE_SIZE
      · rw [if_pos (by simp; omega), if_pos hfit]
        simp
      · rw [if_neg (by simp; omega), if_neg hfit]
    · rw [if_neg hcap, if_neg (by omega)]

lemma foldl_gather_none (t : Table) : ∀ (idxs : List ℕ),
    idxs.foldl
      (fun acc i =>
        match acc with
        | none => none
        | some a => gather_chain a (t i)) none = none := by
  intro idxs
  induction idxs with
  | nil => rfl
  | cons i idxs ih => simpa using ih

lemma foldl_gather (t : Table) : ∀ (idxs : List ℕ) (acc : Chain),
    acc.length ≤ HASH_TABLE_SIZE →
    idxs.foldl
      (fun acc i =>
        match acc with
        | none => none
        | some a => gather_chain a (t i)) (some acc) =
      if acc.length + (idxs.flatMap t).length ≤ HASH_TABLE_SIZE then
        some (acc ++ idxs.flatMap t) else none := by
  intro idxs
  induction idxs with
  | nil =>
    intro acc hacc
    simp only [List.foldl_nil, List.flatMap_nil, List.length_nil, Nat.add_zero,
      List.append_nil]
    rw [if_pos hacc]
  | cons i idxs ih =>
    intro acc hacc
    rw [List.foldl_cons]
    simp only [List.flatMap_cons, List.length_append]
    rw [gather_chain_eq (t i) acc hacc]
    by_cases hfirst : acc.length + (t i).length ≤ HASH_TABLE_SIZE
    · rw [if_pos hfirst, ih (acc ++ t i) (by rw [List.length_append]; omega)]
      by_cases hfit : acc.length + ((t i).length + (idxs.flatMap t).length) ≤ HASH_TABLE_SIZE
      · rw [if_pos (by rw [List.length_append]; omega), if_pos hfit, List.append_assoc]
      · rw [if_neg (by rw [List.length_append]; omega), if_neg hfit]
    · rw [if_neg hfirst, foldl_gather_none t idxs, if_neg (by omega)]

lemma word_linked_list_eq (t : Table) :
    word_linked_list t =
      if (all_nodes t).length ≤ HASH_TABLE_SIZE then some (all_nodes t) else none := by
  unfold word_linked_list all_nodes
  rw [foldl_gather t (List.range HASH_TABLE_SIZE) [] (by rw [List.length_nil]; omega)]
  rw [List.length_nil, Nat.zero_add, List.nil_append]

lemma all_nodes_length (ts : List (List Char)) :
    (all_nodes (build_table ts)).length = ts.dedup.length := by
  rw [← List.length_map (all_nodes (build_table ts)) (fun e => e.1),
    (words_perm_dedup ts).length_eq]

lemma word_linked_list_build (ts : List (List Char)) :
    word_linked_list (build_table ts) =
      if ts.dedup.length ≤ HASH_TABLE_SIZE then some (all_nodes (build_table ts))
      else none := by
  rw [word_linked_list_eq, all_nodes_length]

/-! ### A stream with more distinct words than gather slots -/

lemma char_facts : ∀ d < 26, (Char.ofNat (97 + d)).toNat = 97 + d ∧
    isalpha (Char.ofNat (97 + d)) = true ∧
    tolower (Char.ofNat (97 + d)) = Char.ofNat (97 + d) := by decide

lemma wordOfNat_inj (i j : ℕ) (hi : i < 17576) (hj : j < 17576)
    (h : wordOfNat i = wordOfNat j) : i = j := by
  simp only [wordOfNat, List.cons.injEq, and_true] at h
  obtain ⟨h2, h1, h0⟩ := h
  have e2 := congrArg Char.toNat h2
  have e1 := congrArg Char.toNat h1
  have e0 := congrArg Char.toNat h0
  rw [(char_facts _ (Nat.mod_lt _ (by norm_num))).1,
    (char_facts _ (Nat.mod_lt _ (by norm_num))).1] at e2 e1 e0
  omega

lemma wordOfNat_props (i : ℕ) :
    wordOfNat i ≠ [] ∧ (wordOfNat i).length ≤ WORD_BUFFER_SIZE - 1 ∧
      ∀ c ∈ wordOfNat i, isalpha c = true ∧ tolower c = c := by
  refine ⟨by simp [wordOfNat], by simp [wordOfNat, WORD_BUFFER_SIZE], fun c hc => ?_⟩
  simp only [wordOfNat, List.mem_cons, List.mem_singleton] at hc
  rcases hc with rfl | rfl | rfl | h
  · exact ⟨(char_facts _ (Nat.mod_lt _ (by norm_num))).2.1,
      (char_facts _ (Nat.mod_lt _ (by norm_num))).2.2⟩
  · exact ⟨(char_facts _ (Nat.mod_lt _ (by norm_num))).2.1,
      (char_facts _ (Nat.mod_lt _ (by norm_num))).2.2⟩
  · exact ⟨(char_facts _ (Nat.mod_lt _ (by norm_num))).2.1,
      (char_facts _ (Nat.mod_lt _ (by norm_num))).2.2⟩
  · cases h

lemma blank_not_word_char (buf : List Char) :
    ¬ (isalpha ' ' = true ∨ (' ' = apostrophe ∧ 0 < buf.length)) := by
  rintro (h | ⟨h, _⟩)
  · exact absurd h (by decide)
  · exact absurd h (by decide)

lemma tokenize_go_word_sep : ∀ (v buf rest : List Char), buf ++ v ≠ [] →
    (buf ++ v).length ≤ WORD_BUFFER_SIZE - 1 →
    (∀ c ∈ v, isalpha c = true ∧ tolower c = c) →
    tokenize_go buf (v ++ ' ' :: rest) = (buf ++ v) :: tokenize_go [] rest := by
  intro v
  induction v with
  | nil =>
    intro buf rest hne _ _
    rw [List.append_nil] at hne ⊢
    simp only [List.nil_append, tokenize_go]
    rw [if_neg (blank_not_word_char buf), if_pos (List.length_pos.mpr hne)]
  | cons c v ih =>
    intro buf rest hne hlen hv
    have hc := hv c (List.mem_cons_self c v)
    simp only [List.cons_append, tokenize_go, List.append_eq]
    rw [if_pos (Or.inl hc.1),
      if_pos (by rw [List.length_append, List.length_cons] at hlen; omega), hc.2]
    have h := ih (buf ++ [c]) rest (by simp) (by simpa using hlen)
      (fun x hx => hv x (List.mem_cons_of_mem c hx))
    rw [h, List.append_cons buf c v]

lemma tokenize_words : ∀ (ws : List (List Char)),
    (∀ w ∈ ws, w ≠ [] ∧ w.length ≤ WORD_BUFFER_SIZE - 1 ∧
      ∀ c ∈ w, isalpha c = true ∧ tolower c = c) →
    tokenize (ws.flatMap (fun w => w ++ [' '])) = ws := by
  intro ws
  induction ws with
  | nil => intro _; simp [tokenize, tokenize_go]
  | cons w ws ih =>
    intro hws
    have hw := hws w (List.mem_cons_self w ws)
    rw [List.flatMap_cons, List.append_assoc, List.singleton_append]
    unfold tokenize
    rw [tokenize_go_word_sep w [] _ (by simpa using hw.1) (by simpa using hw.2.1) hw.2.2]
    rw [List.nil_append]
    exact congrArg (w :: ·) (ih (fun x hx => hws x (List.mem_cons_of_mem w hx)))

lemma overflow_text_tokens :
    tokenize overflow_text = (List.range (HASH_TABLE_SIZE + 1)).map wordOfNat := by
  unfold overflow_text
  have h : (List.range (HASH_TABLE_SIZE + 1)).flatMap (fun i => wordOfNat i ++ [' '])
      = ((List.range (HASH_TABLE_SIZE + 1)).map wordOfNat).flatMap (fun w => w ++ [' ']) := by
    rw [List.flatMap_map]
  rw [h]
  refine tokenize_words _ (fun w hw => ?_)
  rcases List.mem_map.mp hw with ⟨i, _, rfl⟩
  exact wordOfNat_props i

lemma overflow_text_distinct :
    HASH_TABLE_SIZE < (tokenize overflow_text).dedup.length := by
  rw [overflow_text_tokens]
  have hnodup : ((List.range (HASH_TABLE_SIZE + 1)).map wordOfNat).Nodup := by
    refine List.Nodup.map_on (fun i hi j hj h => ?_) (List.nodup_range _)
    rw [List.mem_range] at hi hj
    exact wordOfNat_inj i j (by norm_num [HASH_TABLE_SIZE] at hi ⊢; omega)
      (by norm_num [HASH_TABLE_SIZE] at hj ⊢; omega) h
  rw [List.dedup_eq_self.mpr hnodup, List.length_map, List.length_range]
  norm_num [HASH_TABLE_SIZE]

lemma top_n_words_pos (text : List Char) (n : ℤ) (hn : 0 < n) :
    top_n_words (some text) n = (find_frequent_words text n.toNat).map Except.ok := by
  unfold top_n_words
  rw [if_neg (by omega)]

lemma find_frequent_words_ok (text : List Char) (n : ℕ)
    (hbound : (tokenize text).dedup.length ≤ HASH_TABLE_SIZE) :
    find_frequent_words text n =
      some (((sort_by_frequency (all_nodes (build_table (tokenize text)))).map
        (fun e => e.1)).take n) := by
  unfold find_frequent_words
  rw [word_linked_list_build, if_pos hbound, Option.map_some']

lemma find_frequent_words_overflow (text : List Char) (n : ℕ)
    (hbound : HASH_TABLE_SIZE < (tokenize text).dedup.length) :
    find_frequent_words text n = none := by
  unfold find_frequent_words
  rw [word_linked_list_build, if_neg (by omega), Option.map_none']

/-- C7.  The two stated error kinds behave as claimed — `InvalidArgument`
iff `n ≤ 0` (checked first), `InputUnavailable` iff `n` is valid and the
source cannot be opened — but they are not the only failure modes: with
a valid `n` and a readable source, a result sequence exists iff the
stream has at most `HASH_TABLE_SIZE = 10000` distinct words, and beyond
that the gather loop writes past the fixed `word_linked_list` array and
the run has no defined outcome at all (neither error kind nor result). -/
theorem word_counter_errors_iff (source : Option (List Char)) (n : ℤ) :
    (top_n_words source n = some (Except.error WordsError.InvalidArgument) ↔ n ≤ 0) ∧
    (top_n_words source n = some (Except.error WordsError.InputUnavailable) ↔
      0 < n ∧ source = none) ∧
    ((∃ ws, top_n_words source n = some (Except.ok ws)) ↔
      0 < n ∧ ∃ text, source = some text ∧
        (tokenize text).dedup.length ≤ HASH_TABLE_SIZE) ∧
    (top_n_words source n = none ↔
      0 < n ∧ ∃ text, source = some text ∧
        HASH_TABLE_SIZE < (tokenize text).dedup.length) := by
  by_cases hn : n ≤ 0
  · have h : top_n_words source n = some (Except.error WordsError.InvalidArgument) := by
      unfold top_n_words
      rw [if_pos hn]
    rw [h]
    refine ⟨?_, ?_, ?_, ?_⟩ <;> simp [hn]
  · push_neg at hn
    rcases source with _ | text
    · have h : top_n_words none n = some (Except.error WordsError.InputUnavailable) := by
        unfold top_n_words
        rw [if_neg (by omega)]
      rw [h]
      refine ⟨?_, ?_, ?_, ?_⟩ <;> simp [hn]
    · by_cases hbound : (tokenize text).dedup.length ≤ HASH_TABLE_SIZE
      · have h : top_n_words (some text) n =
            some (Except.ok (((sort_by_frequency (all_nodes (build_table (tokenize text)))).map
              (fun e => e.1)).take n.toNat)) := by
          rw [top_n_words_pos text n hn, find_frequent_words_ok text n.toNat hbound,
            Option.map_some']
        rw [h]
        refine ⟨?_, ?_, ?_, ?_⟩ <;> simp [hn, hbound]
      · have h : top_n_words (some text) n = none := by
          rw [top_n_words_pos text n hn,
            find_frequent_words_overflow text n.toNat (by omega), Option.map_none']
        rw [h]
        refine ⟨?_, ?_, ?_, ?_⟩ <;> simp [hn, hbound]
        omega

/-- Witness for C7: the overflow stream with the driver's default
`n = 20` has no defined outcome, while the two stated error kinds occur
at an unopenable source and at `n = 0`. -/
theorem word_counter_errors_iff_witness :
    top_n_words (some overflow_text) 20 = none ∧
    top_n_words none 20 = some (Except.error WordsError.InputUnavailable) ∧
    top_n_words (some overflow_text) 0 = some (Except.error WordsError.InvalidArgument) :=
  ⟨(word_counter_errors_iff (some overflow_text) 20).2.2.2.mpr
      ⟨by norm_num, overflow_text, rfl, overflow_text_distinct⟩,
   (word_counter_errors_iff none 20).2.1.mpr ⟨by norm_num, rfl⟩,
   (word_counter_errors_iff (some overflow_text) 0).1.mpr (by norm_num)⟩

/-- C8.  Within the gather array's capacity the claim holds exactly: for
every text whose stream has at most `HASH_TABLE_SIZE = 10000` distinct
words and every positive `n`, the counter returns (never an error) the
first `n` entries of a descending-count ordering of the table nodes,
whose words are exactly the distinct normalized words of the stream, and
all of them when fewer than `n` exist.  Beyond 10000 distinct words the
claim's "for every input" fails: the gather overflows the fixed array
and the run has no defined outcome (`none`). -/
theorem top_n_sorted_cut :
    (∀ (text : List Char) (n : ℤ), 0 < n →
      (tokenize text).dedup.length ≤ HASH_TABLE_SIZE →
      ∃ ws, top_n_words (some text) n = some (Except.ok ws) ∧
        ∃ l : Chain,
          List.Perm l (all_nodes (build_table (tokenize text))) ∧
          l.Pairwise (fun a b => b.2 ≤ a.2) ∧
          ws = (l.map (fun e => e.1)).take n.toNat ∧
          List.Perm ((all_nodes (build_table (tokenize text))).map (fun e => e.1))
            ((tokenize text).dedup) ∧
          ((tokenize text).dedup.length ≤ n.toNat → List.Perm ws ((tokenize text).dedup))) ∧
    (∀ (text : List Char) (n : ℤ), 0 < n →
      HASH_TABLE_SIZE < (tokenize text).dedup.length →
      top_n_words (some text) n = none) := by
  constructor
  · intro text n hn hbound
    refine ⟨((sort_by_frequency (all_nodes (build_table (tokenize text)))).map
        (fun e => e.1)).take n.toNat, ?_,
      sort_by_frequency (all_nodes (build_table (tokenize text))),
      sort_by_frequency_perm _, sort_by_frequency_sorted _, rfl, words_perm_dedup _,
      fun hlen => ?_⟩
    · rw [top_n_words_pos text n hn, find_frequent_words_ok text n.toNat hbound,
        Option.map_some']
    · have hperm : List.Perm
          ((sort_by_frequency (all_nodes (build_table (tokenize text)))).map
            (fun e => e.1))
          ((all_nodes (build_table (tokenize text))).map (fun e => e.1)) :=
        List.Perm.map _ (sort_by_frequency_perm _)
      have hlen2 : ((sort_by_frequency (all_nodes (build_table (tokenize text)))).map
          (fun e => e.1)).length ≤ n.toNat := by
        rw [hperm.length_eq, (words_perm_dedup (tokenize text)).length_eq]
        exact hlen
      rw [List.take_of_length_le hlen2]
      exact hperm.trans (words_perm_dedup _)
  · intro text n hn hbound
    rw [top_n_words_pos text n hn, find_frequent_words_overflow text n.toNat hbound,
      Option.map_none']

/-- Witness for C8: at the stream `aa b aa` (two distinct words) with
`n = 3` the sorted cut is produced, and at the 10001-distinct-word
overflow stream the run has no defined outcome. -/
theorem top_n_sorted_cut_witness :
    (∃ ws, top_n_words (some ("aa b aa".toList)) 3 = some (Except.ok ws) ∧
      ∃ l : Chain,
        List.Perm l (all_nodes (build_table (tokenize ("aa b aa".toList)))) ∧
        l.Pairwise (fun a b => b.2 ≤ a.2) ∧
        ws = (l.map (fun e => e.1)).take (3 : ℤ).toNat ∧
        List.Perm
          ((all_nodes (build_table (tokenize ("aa b aa".toList)))).map (fun e => e.1))
          ((tokenize ("aa b aa".toList)).dedup) ∧
        ((tokenize ("aa b aa".toList)).dedup.length ≤ (3 : ℤ).toNat →
          List.Perm ws ((tokenize ("aa b aa".toList)).dedup))) ∧
    top_n_words (some overflow_text) 3 = none :=
  ⟨top_n_sorted_cut.1 ("aa b aa".toList) 3 (by norm_num) (by decide),
   top_n_sorted_cut.2 overflow_text 3 (by norm_num) overflow_text_distinct⟩
